import Mathlib

/-!
Verification of the retrieval-pipeline design of `novus-americanus` against
its implementation: the semantic chunker (`src/source/tools/chunking.ts`),
the embedding client and batch processor (`embeddings.ts`), the backfill
orchestrator (`src/source/tools/backfill-embeddings.ts`), the retrieval
service (`enhanced search`) and the SQL matching function
(`match_source_chunks_enhanced`).

Strings are modelled as `List Char` with positions as list indices. Real
(JS `number`) arithmetic on delays, ratios and similarity scores is modelled
exactly over `ℚ`; integer positions and counters over `ℕ`/`ℤ`. The
`headingContext` and structural-flag `metadata` fields of a chunk are omitted
from the model: both are computed by deterministic regex passes over the same
input and affect none of the verified properties (no claim mentions them).
-/

namespace Novus

/-- Document text as a list of characters, indexed like a JS string. -/
abbrev Text := List Char

/-- `CHARS_PER_TOKEN` constant from `chunking.ts`. -/
def CHARS_PER_TOKEN : ℕ := 4

/-- `estimateTokens` from `chunking.ts`: `Math.ceil(text.length / CHARS_PER_TOKEN)`. -/
def estimateTokens (text : Text) : ℕ :=
  (text.length + (CHARS_PER_TOKEN - 1)) / CHARS_PER_TOKEN

/-- JS `Math.floor(t * r)` for a natural `t` and an exact rational ratio `r`,
computed by integer floor division so that it evaluates by kernel reduction.
`jsFloorMul_eq_floor` certifies it equals the mathematical floor. -/
def jsFloorMul (t : ℕ) (r : ℚ) : ℤ := ((t : ℤ) * r.num) / (r.den : ℤ)

theorem jsFloorMul_eq_floor (t : ℕ) (r : ℚ) : jsFloorMul t r = ⌊(t : ℚ) * r⌋ := by
  rw [show ((t : ℚ) * r) = (((t : ℤ) * r.num : ℤ) : ℚ) / ((r.den : ℕ) : ℚ) by
    push_cast
    rw [mul_div_assoc, Rat.num_div_den]]
  rw [Rat.floor_intCast_div_natCast, jsFloorMul]

/-- One chunk produced by the chunker (`ChunkResult` in `chunking.ts`,
minus the `headingContext` and `metadata` fields, see the file comment). -/
structure ChunkResult where
  content : Text
  index : ℕ
  tokenCount : ℕ
  startOffset : ℕ
  endOffset : ℕ
  deriving Repr, DecidableEq

/-- The split-boundary strings searched in priority order by the chunker:
`['\n\n', '\n', '. ', ', ', ' ']`. -/
def boundaries : List Text := [['\n', '\n'], ['\n'], ['.', ' '], [',', ' '], [' ']]

/-- `needle` occurs in `text` starting at index `i`. -/
def occursAt (text needle : Text) (i : ℕ) : Bool := needle.isPrefixOf (text.drop i)

/-- JS `text.lastIndexOf(needle, fromIdx)`: the greatest start index `i ≤ fromIdx`
at which `needle` occurs in `text` (the match may extend past `fromIdx`),
`none` when there is no such occurrence (JS returns `-1`). -/
def lastIndexOf (text needle : Text) (fromIdx : ℕ) : Option ℕ :=
  ((List.range (fromIdx + 1)).filter (occursAt text needle)).getLast?

/-- One boundary candidate of the chunker's inner loop:
`text.lastIndexOf(boundary, Math.min(endPosition, text.length))` accepted when
`boundaryIndex > position + targetChars * 0.8`; the comparison against the real
value `0.8 * targetChars` is the exact integer comparison
`5 * boundaryIndex > 5 * position + 4 * targetChars`. On acceptance the new end
is `boundaryIndex + boundary.length`. JS `-1 > position + 0.8*targetChars` is
false, matching the `none` case. -/
def trySnap (text : Text) (position targetChars endPosition : ℕ) (b : Text) : Option ℕ :=
  match lastIndexOf text b (min endPosition text.length) with
  | none => none
  | some boundaryIndex =>
    if 5 * boundaryIndex > 5 * position + 4 * targetChars then some (boundaryIndex + b.length)
    else none

/-- The `for (const boundary of boundaries)` loop: first accepted boundary wins. -/
def snapSearch (text : Text) (position targetChars endPosition : ℕ) : List Text → Option ℕ
  | [] => none
  | b :: rest =>
    match trySnap text position targetChars endPosition b with
    | some v => some v
    | none => snapSearch text position targetChars endPosition rest

/-- The `endPosition` computed by one iteration of the chunker's `while` loop:
tentative `position + targetChars`, snapped to a boundary when one qualifies,
then clamped by `endPosition = Math.min(endPosition, text.length)`. -/
def chunkEnd (text : Text) (position targetChars : ℕ) : ℕ :=
  min ((snapSearch text position targetChars (position + targetChars) boundaries).getD
    (position + targetChars)) text.length

/-- One iteration of the chunker's `while` loop at `position`: the emitted chunk
and the updated position (`endPosition - overlapChars`, or `endPosition` when
that would not advance past `position`). `overlapChars` is an integer because a
negative `overlapRatio` makes JS compute a negative overlap. -/
def chunkStep (text : Text) (targetChars : ℕ) (overlapChars : ℤ) (position chunkIndex : ℕ) :
    ChunkResult × ℕ :=
  let endPosition := chunkEnd text position targetChars
  let chunkContent := (text.drop position).take (endPosition - position)
  let chunk : ChunkResult :=
    { content := chunkContent
      index := chunkIndex
      tokenCount := estimateTokens chunkContent
      startOffset := position
      endOffset := endPosition }
  let nextPosition : ℤ := (endPosition : ℤ) - overlapChars
  (chunk, if nextPosition ≤ (position : ℤ) then endPosition else nextPosition.toNat)

/-- The chunker's `while (position < text.length)` loop, embedded with explicit
fuel (one unit per iteration entered). The boolean is `true` when the loop
exited by its own conditions (`position ≥ text.length`, or the
`position >= text.length - 10` break, the latter compared over `ℤ` because the
JS right-hand side may be negative) and `false` when the fuel ran out with the
loop still running. `semanticChunk` supplies fuel `text.length + 1`, which
`semanticChunk_terminates` proves sufficient whenever `targetChars ≥ 1`. -/
def semanticChunkLoop (text : Text) (targetChars : ℕ) (overlapChars : ℤ) :
    ℕ → ℕ → ℕ → List ChunkResult × ℕ × Bool
  | 0, position, _ =>
    if position < text.length then ([], position, false) else ([], position, true)
  | fuel + 1, position, chunkIndex =>
    if position < text.length then
      let sr := chunkStep text targetChars overlapChars position chunkIndex
      if (text.length : ℤ) - 10 ≤ (sr.2 : ℤ) then ([sr.1], sr.2, true)
      else
        let rest := semanticChunkLoop text targetChars overlapChars fuel sr.2 (chunkIndex + 1)
        (sr.1 :: rest.1, rest.2)
    else ([], position, true)

/-- `semanticChunk(text, targetSize, overlapRatio)` from `chunking.ts`, with the
final position and the completion flag exposed. `targetChars = targetSize * 4`,
`overlapChars = Math.floor(targetChars * overlapRatio)`.
`semanticChunkGenerator` has the identical loop body (`yield` in place of
`push`), so this single definition embeds both variants. -/
def semanticChunkFull (text : Text) (targetSize : ℕ) (overlapRatio : ℚ) :
    List ChunkResult × ℕ × Bool :=
  semanticChunkLoop text (targetSize * CHARS_PER_TOKEN)
    (jsFloorMul (targetSize * CHARS_PER_TOKEN) overlapRatio) (text.length + 1) 0 0

/-- The chunk list returned by `semanticChunk`. The TypeScript defaults are
`targetSize = 512`, `overlapRatio = 0.15 = mkRat 3 20`. -/
def semanticChunk (text : Text) (targetSize : ℕ) (overlapRatio : ℚ) : List ChunkResult :=
  (semanticChunkFull text targetSize overlapRatio).1

/-- The exact rational value of the default overlap ratio literal `0.15`. -/
theorem mkRat_three_twenty : (mkRat 3 20 : ℚ) = 3 / 20 := by norm_num [mkRat]

/-- Character position `i` lies inside some chunk's `[startOffset, endOffset)` span. -/
def coversPos (chunks : List ChunkResult) (i : ℕ) : Bool :=
  chunks.any fun c => decide (c.startOffset ≤ i) && decide (i < c.endOffset)

/-- C1 counterexample: for the 8-character text `"aaaaaaaa"` with
`targetSize = 1`, `overlapRatio = 0.15`, the chunker emits the single span
`[0, 4)` and then stops (the `position >= text.length - 10` break fires), so
position 5 of the document is covered by no chunk: the union of spans does not
reconstruct the text. -/
theorem semanticChunk_coverage_counterexample :
    (List.replicate 8 'a').length = 8 ∧
    semanticChunk (List.replicate 8 'a') 1 (mkRat 3 20) =
      [{ content := List.replicate 4 'a', index := 0, tokenCount := 1,
         startOffset := 0, endOffset := 4 }] ∧
    coversPos (semanticChunk (List.replicate 8 'a') 1 (mkRat 3 20)) 5 = false := by
  decide

/-- C2 counterexample: the 70-character text `"aa…a"` is non-empty and shorter
than the character budget `20 * 4 = 80`, yet `semanticChunk` with
`targetSize = 20`, `overlapRatio = 0.15` returns 2 chunks, not 1: after the
first chunk `[0, 70)` the position rolls back by `overlapChars = 12 > 10`
characters, which re-enters the loop and emits a second chunk `[58, 70)`. -/
theorem semanticChunk_single_chunk_counterexample :
    List.replicate 70 'a' ≠ [] ∧
    (List.replicate 70 'a').length < 20 * CHARS_PER_TOKEN ∧
    (semanticChunk (List.replicate 70 'a') 20 (mkRat 3 20)).length = 2 := by
  refine ⟨by decide, by decide, by decide⟩

theorem boundaries_ne_nil : ∀ b ∈ boundaries, b ≠ [] := by decide

theorem occursAt_of_ge (text needle : Text) (i : ℕ) (hn : needle ≠ [])
    (hi : text.length ≤ i) : occursAt text needle i = false := by
  unfold occursAt
  rw [List.drop_eq_nil_of_le hi]
  cases needle with
  | nil => exact absurd rfl hn
  | cons a l => rfl

theorem lastIndexOf_eq_none (text needle : Text) (k : ℕ) (hn : needle ≠ [])
    (h : ∀ i < text.length, occursAt text needle i = false) :
    lastIndexOf text needle k = none := by
  unfold lastIndexOf
  rw [List.filter_eq_nil_iff.mpr ?_]
  · rfl
  · intro i _
    by_cases hlt : i < text.length
    · simp [h i hlt]
    · simp [occursAt_of_ge text needle i hn (by omega)]

theorem trySnap_gt (text : Text) (pos t e : ℕ) (b : Text) (v : ℕ) (ht : 1 ≤ t)
    (h : trySnap text pos t e b = some v) : pos < v := by
  unfold trySnap at h
  cases hli : lastIndexOf text b (min e text.length) with
  | none => rw [hli] at h; exact absurd h (by simp)
  | some bi =>
    rw [hli] at h
    simp only at h
    by_cases hc : 5 * bi > 5 * pos + 4 * t
    · rw [if_pos hc] at h
      injection h with h
      omega
    · rw [if_neg hc] at h
      exact absurd h (by simp)

theorem snapSearch_gt (text : Text) (pos t e : ℕ) (ht : 1 ≤ t) :
    ∀ bs v, snapSearch text pos t e bs = some v → pos < v := by
  intro bs
  induction bs with
  | nil => intro v h; exact absurd h (by simp [snapSearch])
  | cons b rest ih =>
    intro v h
    unfold snapSearch at h
    cases hb : trySnap text pos t e b with
    | none => rw [hb] at h; exact ih v h
    | some w =>
      rw [hb] at h
      injection h with h
      subst h
      exact trySnap_gt text pos t e b w ht hb

theorem chunkEnd_bounds (text : Text) (pos t : ℕ) (hp : pos < text.length) (ht : 1 ≤ t) :
    pos < chunkEnd text pos t ∧ chunkEnd text pos t ≤ text.length := by
  refine ⟨?_, min_le_right _ _⟩
  unfold chunkEnd
  cases hs : snapSearch text pos t (pos + t) boundaries with
  | none =>
    simp only [hs, Option.getD_none]
    exact lt_min (by omega) hp
  | some v =>
    simp only [hs, Option.getD_some]
    exact lt_min (snapSearch_gt text pos t (pos + t) ht _ v hs) hp

theorem chunkStep_fst (text : Text) (t : ℕ) (o : ℤ) (pos idx : ℕ) :
    (chunkStep text t o pos idx).1.startOffset = pos ∧
    (chunkStep text t o pos idx).1.endOffset = chunkEnd text pos t :=
  ⟨rfl, rfl⟩

theorem chunkStep_snd_gt (text : Text) (t : ℕ) (o : ℤ) (pos idx : ℕ)
    (hp : pos < text.length) (ht : 1 ≤ t) : pos < (chunkStep text t o pos idx).2 := by
  have h1 := (chunkEnd_bounds text pos t hp ht).1
  unfold chunkStep
  simp only []
  split
  · exact h1
  · rename_i hc
    omega

theorem chunkStep_snd_le (text : Text) (t : ℕ) (o : ℤ) (pos idx : ℕ) (ho : 0 ≤ o) :
    (chunkStep text t o pos idx).2 ≤ chunkEnd text pos t := by
  unfold chunkStep
  simp only []
  split
  · exact le_refl _
  · rename_i hc
    omega

theorem coversPos_cons (c : ChunkResult) (cs : List ChunkResult) (i : ℕ) :
    coversPos (c :: cs) i =
      ((decide (c.startOffset ≤ i) && decide (i < c.endOffset)) || coversPos cs i) := by
  simp [coversPos]

/-- Invariant of the chunker's loop, for `targetChars ≥ 1` and a non-negative
overlap and enough fuel: the loop exits by its own conditions, the final
position is at least `text.length - 10`, every emitted span lies inside
`[position, text.length]` and is non-degenerate, and the emitted spans cover
every index from the entry position up to the final position. -/
theorem semanticChunkLoop_spec (text : Text) (t : ℕ) (o : ℤ) (ht : 1 ≤ t) (ho : 0 ≤ o) :
    ∀ fuel pos idx, text.length ≤ fuel + pos →
      (semanticChunkLoop text t o fuel pos idx).2.2 = true ∧
      pos ≤ (semanticChunkLoop text t o fuel pos idx).2.1 ∧
      (text.length : ℤ) - 10 ≤ ((semanticChunkLoop text t o fuel pos idx).2.1 : ℤ) ∧
      (∀ c ∈ (semanticChunkLoop text t o fuel pos idx).1,
        pos ≤ c.startOffset ∧ c.startOffset < c.endOffset ∧ c.endOffset ≤ text.length) ∧
      (∀ i, pos ≤ i → i < (semanticChunkLoop text t o fuel pos idx).2.1 →
        coversPos (semanticChunkLoop text t o fuel pos idx).1 i = true) := by
  intro fuel
  induction fuel with
  | zero =>
    intro pos idx hf
    have hpl : ¬ pos < text.length := by omega
    simp only [semanticChunkLoop, if_neg hpl]
    refine ⟨trivial, le_refl _, by omega, by simp, ?_⟩
    intro i h1 h2
    omega
  | succ fuel ih =>
    intro pos idx hf
    by_cases hp : pos < text.length
    · have hadv := chunkStep_snd_gt text t o pos idx hp ht
      have hle := chunkStep_snd_le text t o pos idx ho
      have hcs := chunkStep_fst text t o pos idx
      have hce := chunkEnd_bounds text pos t hp ht
      by_cases hbr : (text.length : ℤ) - 10 ≤ ((chunkStep text t o pos idx).2 : ℤ)
      · simp only [semanticChunkLoop, if_pos hp, if_pos hbr]
        refine ⟨trivial, by omega, hbr, ?_, ?_⟩
        · intro c hc
          simp only [List.mem_singleton] at hc
          subst hc
          exact ⟨le_of_eq hcs.1.symm, by omega, by omega⟩
        · intro i h1 h2
          rw [coversPos_cons]
          have hic : i < chunkEnd text pos t := by omega
          simp [hcs.1, hcs.2, h1, hic]
      · simp only [semanticChunkLoop, if_pos hp, if_neg hbr]
        have hrec := ih (chunkStep text t o pos idx).2 (idx + 1) (by omega)
        refine ⟨hrec.1, by omega, hrec.2.2.1, ?_, ?_⟩
        · intro c hc
          rcases List.mem_cons.mp hc with hc | hc
          · subst hc
            exact ⟨le_of_eq hcs.1.symm, by omega, by omega⟩
          · have := hrec.2.2.2.1 c hc
            exact ⟨by omega, this.2.1, this.2.2⟩
        · intro i h1 h2
          rw [coversPos_cons]
          by_cases hic : i < chunkEnd text pos t
          · simp [hcs.1, hcs.2, h1, hic]
          · have hcov := hrec.2.2.2.2 i (by omega) h2
            simp [hcov]
    · simp only [semanticChunkLoop, if_neg hp]
      refine ⟨trivial, le_refl _, by omega, by simp, ?_⟩
      intro i h1 h2
      omega

/-- Termination of the chunker's loop needs only `targetChars ≥ 1` (the overlap
may be arbitrary, including the `overlap ≥ remaining budget` case): each
iteration strictly advances, so fuel `text.length + 1` always suffices. -/
theorem semanticChunkLoop_terminates (text : Text) (t : ℕ) (o : ℤ) (ht : 1 ≤ t) :
    ∀ fuel pos idx, text.length ≤ fuel + pos →
      (semanticChunkLoop text t o fuel pos idx).2.2 = true := by
  intro fuel
  induction fuel with
  | zero =>
    intro pos idx hf
    have hpl : ¬ pos < text.length := by omega
    simp only [semanticChunkLoop, if_neg hpl]
  | succ fuel ih =>
    intro pos idx hf
    by_cases hp : pos < text.length
    · have hadv := chunkStep_snd_gt text t o pos idx hp ht
      by_cases hbr : (text.length : ℤ) - 10 ≤ ((chunkStep text t o pos idx).2 : ℤ)
      · simp only [semanticChunkLoop, if_pos hp, if_pos hbr]
      · simp only [semanticChunkLoop, if_pos hp, if_neg hbr]
        exact ih (chunkStep text t o pos idx).2 (idx + 1) (by omega)
    · simp only [semanticChunkLoop, if_neg hp]

/-- C1 (amended): for `targetSize ≥ 1` and `overlapRatio ≥ 0` (both hold for
the defaults), every chunk span is non-degenerate and lies within the text, and
the union of the `[startOffset, endOffset)` spans covers every character
position except possibly the final at-most-10 characters — the terminal
`position >= text.length - 10` break (the "small epsilon" stop) can leave up to
10 trailing characters uncovered, as the counterexample shows, so full
reconstruction of the text is not guaranteed. -/
theorem semanticChunk_coverage_amended (text : Text) (targetSize : ℕ) (overlapRatio : ℚ)
    (hts : 1 ≤ targetSize) (hor : 0 ≤ overlapRatio) :
    (∀ c ∈ semanticChunk text targetSize overlapRatio,
      c.startOffset < c.endOffset ∧ c.endOffset ≤ text.length) ∧
    ∀ i, i + 10 < text.length →
      coversPos (semanticChunk text targetSize overlapRatio) i = true := by
  have ht : 1 ≤ targetSize * CHARS_PER_TOKEN := by
    unfold CHARS_PER_TOKEN
    omega
  have ho : 0 ≤ jsFloorMul (targetSize * CHARS_PER_TOKEN) overlapRatio := by
    rw [jsFloorMul_eq_floor]
    exact Int.floor_nonneg.mpr (by positivity)
  have hspec := semanticChunkLoop_spec text (targetSize * CHARS_PER_TOKEN)
    (jsFloorMul (targetSize * CHARS_PER_TOKEN) overlapRatio) ht ho
    (text.length + 1) 0 0 (by omega)
  unfold semanticChunk semanticChunkFull
  refine ⟨fun c hc => ((hspec.2.2.2.1 c hc).2 : _), ?_⟩
  intro i hi
  refine hspec.2.2.2.2 i (Nat.zero_le i) ?_
  have := hspec.2.2.1
  omega

/-- Witness for `semanticChunk_coverage_amended`: position 0 of a 12-character
document is covered with the default-shaped parameters. -/
theorem semanticChunk_coverage_amended_witness :
    coversPos (semanticChunk (List.replicate 12 'a') 1 (mkRat 3 20)) 0 = true :=
  (semanticChunk_coverage_amended (List.replicate 12 'a') 1 (mkRat 3 20)
    (by decide) (by decide)).2 0 (by decide)

/-- C9 counterexample: with `targetSize = 0` (so `targetChars = 0`) on a
12-character text, the loop iteration at position 0 emits a chunk and returns
position 0 again — it does not advance — while neither exit condition holds
(`0 < 12` keeps the loop running and `12 - 10 ≤ 0` is false), and the fueled
run exhausts its fuel without the loop ever exiting: the chunker does not
terminate for every choice of parameters. -/
theorem chunker_no_advance_counterexample :
    (chunkStep (List.replicate 12 'a') 0 0 0 0).2 = 0 ∧
    0 < (List.replicate 12 'a').length ∧
    ¬ (((List.replicate 12 'a').length : ℤ) - 10 ≤
        ((chunkStep (List.replicate 12 'a') 0 0 0 0).2 : ℤ)) ∧
    (semanticChunkFull (List.replicate 12 'a') 0 (mkRat 3 20)).2.2 = false := by
  refine ⟨by decide, by decide, by decide, by decide⟩

/-- C9 (amended): for every text and overlap ratio, and every `targetSize` with
`targetChars = 4 * targetSize ≥ 1` (in particular every `targetSize ≥ 1` — the
amendment the `targetSize = 0` counterexample forces), every iteration of the
chunker's loop strictly advances its position, and the loop of both
`semanticChunk` and the identical-bodied `semanticChunkGenerator` exits by its
own conditions within the supplied fuel — it terminates — even when the
overlap is greater than or equal to the remaining budget (the overlap is
unconstrained here, including negative and over-budget values). -/
theorem chunker_advances_and_terminates (text : Text) (targetSize : ℕ) (overlapRatio : ℚ)
    (hts : 1 ≤ targetSize) :
    (∀ position chunkIndex, position < text.length →
      position < (chunkStep text (targetSize * CHARS_PER_TOKEN)
        (jsFloorMul (targetSize * CHARS_PER_TOKEN) overlapRatio) position chunkIndex).2) ∧
    (semanticChunkFull text targetSize overlapRatio).2.2 = true := by
  have ht : 1 ≤ targetSize * CHARS_PER_TOKEN := by
    unfold CHARS_PER_TOKEN
    omega
  refine ⟨fun position chunkIndex hp => chunkStep_snd_gt text _ _ position chunkIndex hp ht, ?_⟩
  unfold semanticChunkFull
  exact semanticChunkLoop_terminates text _ _ ht (text.length + 1) 0 0 (by omega)

/-- Witness for `chunker_advances_and_terminates`: the loop exits for a
12-character document at `targetSize = 1`, and the first iteration advances. -/
theorem chunker_advances_and_terminates_witness :
    0 < (chunkStep (List.replicate 12 'a') (1 * CHARS_PER_TOKEN)
        (jsFloorMul (1 * CHARS_PER_TOKEN) (mkRat 3 20)) 0 0).2 ∧
    (semanticChunkFull (List.replicate 12 'a') 1 (mkRat 3 20)).2.2 = true :=
  ⟨(chunker_advances_and_terminates (List.replicate 12 'a') 1 (mkRat 3 20)
      (by decide)).1 0 0 (by decide),
   (chunker_advances_and_terminates (List.replicate 12 'a') 1 (mkRat 3 20) (by decide)).2⟩

theorem snapSearch_eq_none (text : Text) (pos t e : ℕ) :
    ∀ bs, (∀ b ∈ bs, trySnap text pos t e b = none) → snapSearch text pos t e bs = none := by
  intro bs
  induction bs with
  | nil => intro _; rfl
  | cons b rest ih =>
    intro h
    unfold snapSearch
    rw [h b (by simp)]
    exact ih fun b' hb' => h b' (by simp [hb'])

theorem chunkEnd_of_no_boundaries (text : Text) (pos t : ℕ)
    (h : ∀ b ∈ boundaries, ∀ i < text.length, occursAt text b i = false) :
    chunkEnd text pos t = min (pos + t) text.length := by
  unfold chunkEnd
  rw [snapSearch_eq_none text pos t (pos + t) boundaries ?_]
  · rfl
  · intro b hb
    unfold trySnap
    rw [lastIndexOf_eq_none text b _ (boundaries_ne_nil b hb) (h b hb)]

/-- C2 (amended): an empty document yields zero chunks for every choice of
parameters. A non-empty document shorter than the character budget
(`targetSize * 4`) in which no boundary string occurs yields exactly one chunk
spanning the whole document provided `overlapChars ≤ 10` or the document is no
longer than `overlapChars`; otherwise (as the counterexample shows, e.g. a
70-character document at `targetSize = 20`, where `overlapChars = 12`) the
position rolls back past the epsilon window and a second chunk is emitted, so
"shorter than the budget ⟹ exactly one chunk" does not hold in general. With
the defaults (`overlapChars = 307`) a 2,000-character document likewise yields
2 chunks, not 1. -/
theorem semanticChunk_short_document_amended (text : Text) (targetSize : ℕ)
    (overlapRatio : ℚ) (hne : text ≠ []) (hts : 1 ≤ targetSize)
    (hshort : text.length < targetSize * CHARS_PER_TOKEN)
    (hnob : ∀ b ∈ boundaries, ∀ i < text.length, occursAt text b i = false)
    (hov : jsFloorMul (targetSize * CHARS_PER_TOKEN) overlapRatio ≤ 10 ∨
      (text.length : ℤ) ≤ jsFloorMul (targetSize * CHARS_PER_TOKEN) overlapRatio) :
    semanticChunk text targetSize overlapRatio =
      [{ content := text, index := 0, tokenCount := estimateTokens text,
         startOffset := 0, endOffset := text.length }] ∧
    ∀ ts r, semanticChunk [] ts r = [] := by
  constructor
  · have hlen : 0 < text.length := List.length_pos.mpr hne
    have hce : chunkEnd text 0 (targetSize * CHARS_PER_TOKEN) = text.length := by
      rw [chunkEnd_of_no_boundaries text 0 _ hnob]
      omega
    set o := jsFloorMul (targetSize * CHARS_PER_TOKEN) overlapRatio with ho
    have hstep : chunkStep text (targetSize * CHARS_PER_TOKEN) o 0 0 =
        ({ content := text, index := 0, tokenCount := estimateTokens text,
           startOffset := 0, endOffset := text.length },
         if (text.length : ℤ) - o ≤ (0 : ℤ) then text.length
         else ((text.length : ℤ) - o).toNat) := by
      unfold chunkStep
      simp only [hce, Nat.cast_zero, List.drop_zero, Nat.sub_zero, List.take_length]
    have hbreak : (text.length : ℤ) - 10 ≤
        (((if (text.length : ℤ) - o ≤ (0 : ℤ) then text.length
          else ((text.length : ℤ) - o).toNat) : ℕ) : ℤ) := by
      by_cases hc : (text.length : ℤ) - o ≤ (0 : ℤ)
      · rw [if_pos hc]
        omega
      · rw [if_neg hc]
        omega
    unfold semanticChunk semanticChunkFull
    rw [← ho]
    simp only [semanticChunkLoop, if_pos hlen, hstep]
    rw [if_pos hbreak]
  · intro ts r
    rfl

/-- Witness for `semanticChunk_short_document_amended`: a 12-character
boundary-free document with the default parameters (budget 2048,
`overlapChars = 307 ≥ 12`) yields exactly the single whole-document chunk. -/
theorem semanticChunk_short_document_amended_witness :
    semanticChunk (List.replicate 12 'a') 512 (mkRat 3 20) =
      [{ content := List.replicate 12 'a', index := 0, tokenCount := 3,
         startOffset := 0, endOffset := 12 }] :=
  (semanticChunk_short_document_amended (List.replicate 12 'a') 512 (mkRat 3 20)
    (by decide) (by decide) (by decide) (by decide) (by decide)).1

/-! Embedding client and batch processor (`embeddings.ts`). -/

/-- The error shape inspected by `isRetryableError`:
`{statusCode?: number; code?: string; message?: string}`. -/
structure ProviderError where
  statusCode : Option ℕ
  code : Option String
  message : Option Text
  deriving Repr, DecidableEq

/-- JS `s.includes(pat)`: `pat` occurs as a contiguous substring of `s`. -/
def strIncludes (s pat : Text) : Bool :=
  (List.range (s.length + 1)).any fun i => pat.isPrefixOf (s.drop i)

/-- `isRetryableError` from `embeddings.ts`, checks in source order:
`statusCode === 429`; truthy `statusCode` in `[500, 600)`; `code` is
`ETIMEDOUT`/`ECONNRESET`; `message` contains `'connection'` or `'timeout'`
(optional chaining: a missing message is falsy); truthy `statusCode` in
`[400, 500)` ⟹ not retryable; otherwise retryable. -/
def isRetryableError (e : ProviderError) : Bool :=
  if e.statusCode == some 429 then true
  else if (match e.statusCode with
    | some s => decide (s ≠ 0) && decide (500 ≤ s) && decide (s < 600)
    | none => false) then true
  else if e.code == some "ETIMEDOUT" || e.code == some "ECONNRESET" then true
  else if (match e.message with
    | some m => strIncludes m ("connection".toList) || strIncludes m ("timeout".toList)
    | none => false) then true
  else if (match e.statusCode with
    | some s => decide (s ≠ 0) && decide (400 ≤ s) && decide (s < 500)
    | none => false) then false
  else true

/-- C7 counterexample: the error `{statusCode: 404, message: 'connection refused'}`
has an HTTP status in 400–499 other than 429, so the claim says it is fatal —
but `isRetryableError` tests the message for `'connection'`/`'timeout'` before
the 4xx check and classifies it retryable. -/
theorem isRetryableError_counterexample :
    isRetryableError
      { statusCode := some 404, code := none, message := some ("connection refused".toList) }
      = true := by
  decide

/-- C7 (amended): HTTP 429, any status in 500–599, and the network
timeout/reset codes are retryable; a status in 400–499 other than 429 is fatal
provided the error carries no `ETIMEDOUT`/`ECONNRESET` code and its message
contains neither `'connection'` nor `'timeout'` (the amendment the
counterexample forces — the message check precedes the 4xx check); errors with
no status at all are retryable. -/
theorem isRetryableError_classification (e : ProviderError) :
    (e.statusCode = some 429 → isRetryableError e = true) ∧
    (∀ s, e.statusCode = some s → 500 ≤ s → s < 600 → isRetryableError e = true) ∧
    (e.code = some "ETIMEDOUT" ∨ e.code = some "ECONNRESET" → isRetryableError e = true) ∧
    (∀ s, e.statusCode = some s → 400 ≤ s → s < 500 → s ≠ 429 →
      e.code ≠ some "ETIMEDOUT" → e.code ≠ some "ECONNRESET" →
      (∀ m, e.message = some m →
        strIncludes m ("connection".toList) = false ∧
        strIncludes m ("timeout".toList) = false) →
      isRetryableError e = false) ∧
    (e.statusCode = none → isRetryableError e = true) := by
  obtain ⟨sc, co, me⟩ := e
  refine ⟨?_, ?_, ?_, ?_, ?_⟩
  · intro h
    subst h
    simp [isRetryableError]
  · intro s h h5 h6
    subst h
    unfold isRetryableError
    split_ifs with h1 h2 h3 h4 h5x
    · rfl
    · rfl
    · rfl
    · rfl
    · exfalso
      simp only [Bool.and_eq_true, decide_eq_true_eq] at h5x
      omega
    · rfl
  · intro h
    unfold isRetryableError
    split_ifs with h1 h2 h3 h4 h5x
    · rfl
    · rfl
    · rfl
    · rfl
    · exfalso
      rcases h with h | h
      · simp [show co = some "ETIMEDOUT" from h] at h3
      · simp [show co = some "ECONNRESET" from h] at h3
    · rfl
  · intro s h h4 h5 h429 hc1 hc2 hm
    subst h
    unfold isRetryableError
    split_ifs with h1 h2 h3 hmsg hfour
    · exfalso
      simp only [Option.some.injEq, beq_iff_eq] at h1
      omega
    · exfalso
      simp only [Bool.and_eq_true, decide_eq_true_eq] at h2
      omega
    · exfalso
      simp only [Bool.or_eq_true, beq_iff_eq] at h3
      rcases h3 with h3 | h3 <;> simp [h3] at hc1 hc2
    · exfalso
      cases me with
      | none => simp at hmsg
      | some m =>
        have hmm := hm m rfl
        simp only [Bool.or_eq_true, hmm.1, hmm.2] at hmsg
        exact absurd hmsg (by simp)
    · rfl
    · exfalso
      simp only [Bool.and_eq_true, decide_eq_true_eq] at hfour
      exact hfour ⟨⟨by omega, h4⟩, h5⟩
  · intro h
    subst h
    unfold isRetryableError
    split_ifs <;> simp_all

/-- Witness for `isRetryableError_classification`: a plain 404 with no network
hints is classified fatal. -/
theorem isRetryableError_classification_witness :
    isRetryableError ⟨some 404, none, some ("bad request".toList)⟩ = false :=
  (isRetryableError_classification ⟨some 404, none, some ("bad request".toList)⟩).2.2.2.1
    404 rfl (by norm_num) (by norm_num) (by norm_num) (by simp) (by simp)
    (fun m hm => by
      injection hm with hm
      subst hm
      exact ⟨by decide, by decide⟩)

/-- One entry of the Voyage `embed` response: `d.embedding` may be absent. -/
structure VoyageEmbeddingEntry where
  embedding : Option (List ℚ)
  deriving Repr, DecidableEq

/-- The Voyage `embed` response: the `data` array itself may be absent. -/
structure VoyageResponse where
  data : Option (List VoyageEmbeddingEntry)
  deriving Repr, DecidableEq

/-- `generateEmbeddings(texts)` from `embeddings.ts`, as a function of the
provider's response: throws when `response.data` is absent, otherwise returns
`response.data.map(d => d.embedding).filter(Boolean)` — the embeddings that are
present, with absent ones silently dropped. The input texts only shape the
request, not the extraction. -/
def generateEmbeddings (texts : List Text) (response : VoyageResponse) :
    Except String (List (List ℚ)) :=
  match response.data with
  | none => Except.error "No embeddings returned from Voyage AI"
  | some data => Except.ok ((data.map (fun d => d.embedding)).reduceOption)

/-- C3: for one input text and a provider response whose single data entry has
no embedding vector, `generateEmbeddings` succeeds with zero vectors instead of
failing: the `.filter(Boolean)` silently drops the missing vector, so the call
returns a shorter vector list rather than an error, contradicting the spec
(its §9 design note acknowledges the code "silently producing sparse output"
and states it should reject such responses). -/
theorem generateEmbeddings_drops_missing_vectors :
    generateEmbeddings ["hi".toList] { data := some [{ embedding := none }] } =
      Except.ok [] ∧
    ([] : List (List ℚ)).length ≠ ["hi".toList].length := by
  exact ⟨rfl, by decide⟩

/-- The observable outcome of `processBatch`: the sleeps performed (in order),
the number of attempts made, and the final result (`ok` for a successful
return, `error e` for a raised error). -/
structure BatchRun where
  sleeps : List ℚ
  attemptsMade : ℕ
  result : Except ProviderError Unit

/-- The retry loop `for (attempt = 1; attempt <= maxRetries; attempt++)` of
`processBatch` in `embeddings.ts`. `outcome k` abstracts the k-th attempt's
combined embed-and-bulk-insert effect (the whole batch in one provider call
and one atomic `batch_insert_chunks` RPC — an attempt commits the full batch
or nothing); `rands k` abstracts `Math.random()` at attempt `k`. On a
retryable failure with attempts remaining it sleeps
`min(delay + Math.random() * 0.1 * delay, maxDelay)` and doubles `delay` by
`backoffMultiplier`; on success it returns; on a fatal failure or the last
attempt it raises that error. When `maxRetries < attempt` the loop body never
runs and the function returns without error (`lastError` is unset). -/
def processBatchGo (outcome : ℕ → Except ProviderError Unit) (rands : ℕ → ℚ)
    (maxRetries : ℕ) (maxDelay backoffMultiplier : ℚ) :
    (attempt : ℕ) → (delay : ℚ) → BatchRun
  | attempt, delay =>
    if h : maxRetries < attempt then { sleeps := [], attemptsMade := 0, result := Except.ok () }
    else
      match outcome attempt with
      | Except.ok _ => { sleeps := [], attemptsMade := 1, result := Except.ok () }
      | Except.error e =>
        if !isRetryableError e || attempt == maxRetries then
          { sleeps := [], attemptsMade := 1, result := Except.error e }
        else
          let jitter := rands attempt * (1 / 10) * delay
          let totalDelay := min (delay + jitter) maxDelay
          let rest := processBatchGo outcome rands maxRetries maxDelay backoffMultiplier
            (attempt + 1) (delay * backoffMultiplier)
          { sleeps := totalDelay :: rest.sleeps, attemptsMade := rest.attemptsMade + 1,
            result := rest.result }
  termination_by attempt _ => maxRetries + 1 - attempt
  decreasing_by
    rename_i hb
    simp only [Bool.or_eq_true, Bool.not_eq_true', beq_iff_eq, not_or] at hb
    omega

/-- `processBatch(sourceId, batch, maxRetries, initialDelay, maxDelay,
backoffMultiplier)`: the loop entered at `attempt = 1` with `delay =
initialDelay`. -/
def processBatch (outcome : ℕ → Except ProviderError Unit) (rands : ℕ → ℚ)
    (maxRetries : ℕ) (initialDelay maxDelay backoffMultiplier : ℚ) : BatchRun :=
  processBatchGo outcome rands maxRetries maxDelay backoffMultiplier 1 initialDelay

theorem processBatchGo_all_fail (outcome : ℕ → Except ProviderError Unit)
    (errs : ℕ → ProviderError) (rands : ℕ → ℚ) (maxRetries : ℕ) (maxDelay mult : ℚ)
    (hfail : ∀ k, outcome k = Except.error (errs k))
    (hretry : ∀ k, isRetryableError (errs k) = true) :
    ∀ rem attempt delay, attempt + rem = maxRetries → 1 ≤ attempt →
      processBatchGo outcome rands maxRetries maxDelay mult attempt delay =
        { sleeps := (List.range rem).map fun k =>
            min (delay * mult ^ k + rands (attempt + k) * (1 / 10) * (delay * mult ^ k)) maxDelay
          attemptsMade := rem + 1
          result := Except.error (errs maxRetries) } := by
  intro rem
  induction rem with
  | zero =>
    intro attempt delay h h1
    have ha : attempt = maxRetries := by omega
    unfold processBatchGo
    rw [dif_neg (by omega), hfail attempt]
    show (if (!isRetryableError (errs attempt) || attempt == maxRetries) = true then _ else _) = _
    rw [if_pos (by simp [ha])]
    simp [ha]
  | succ rem ih =>
    intro attempt delay h h1
    unfold processBatchGo
    rw [dif_neg (by omega), hfail attempt]
    show (if (!isRetryableError (errs attempt) || attempt == maxRetries) = true then _ else _) = _
    rw [if_neg (by simp only [hretry attempt, Bool.not_true, Bool.false_or, beq_iff_eq]; omega)]
    have hrest := ih (attempt + 1) (delay * mult) (by omega) (by omega)
    simp only [hrest, BatchRun.mk.injEq, and_true, true_and]
    rw [List.range_succ_eq_map, List.map_cons, List.map_map]
    simp only [List.cons.injEq]
    constructor
    · simp only [pow_zero, mul_one, Nat.add_zero]
    · refine List.map_congr_left fun k _ => ?_
      have hg1 : delay * mult * mult ^ k = delay * mult ^ (k + 1) := by ring
      have hg2 : attempt + 1 + k = attempt + (k + 1) := by omega
      rw [Function.comp_apply, hg1, hg2]

/-- C4: a batch whose every attempt fails with a retryable error is attempted
exactly `maxRetries` times and then the error of the final attempt is raised;
before the k-th retry (k = 0, 1, …) the processor sleeps
`min(initialDelay · backoffMultiplier^k + jitter_k, maxDelay)` where
`jitter_k = Math.random() · 0.1 · (initialDelay · backoffMultiplier^k)` is
non-negative and at most 10% of the current delay. Each attempt covers the
whole batch (one provider call, one atomic bulk insert), so a failed run
commits nothing — the batch is retried from scratch. -/
theorem processBatch_retry_bound (outcome : ℕ → Except ProviderError Unit)
    (errs : ℕ → ProviderError) (rands : ℕ → ℚ) (maxRetries : ℕ)
    (initialDelay maxDelay mult : ℚ)
    (hfail : ∀ k, outcome k = Except.error (errs k))
    (hretry : ∀ k, isRetryableError (errs k) = true)
    (hrand : ∀ k, 0 ≤ rands k ∧ rands k < 1)
    (hd : 0 ≤ initialDelay) (hm : 0 ≤ mult) (hmr : 1 ≤ maxRetries) :
    (processBatch outcome rands maxRetries initialDelay maxDelay mult).attemptsMade =
      maxRetries ∧
    (processBatch outcome rands maxRetries initialDelay maxDelay mult).result =
      Except.error (errs maxRetries) ∧
    (processBatch outcome rands maxRetries initialDelay maxDelay mult).sleeps.length =
      maxRetries - 1 ∧
    ∀ k, k < maxRetries - 1 →
      (processBatch outcome rands maxRetries initialDelay maxDelay mult).sleeps[k]? =
        some (min (initialDelay * mult ^ k +
          rands (1 + k) * (1 / 10) * (initialDelay * mult ^ k)) maxDelay) ∧
      0 ≤ rands (1 + k) * (1 / 10) * (initialDelay * mult ^ k) ∧
      rands (1 + k) * (1 / 10) * (initialDelay * mult ^ k) ≤
        (1 / 10) * (initialDelay * mult ^ k) := by
  have hrun := processBatchGo_all_fail outcome errs rands maxRetries maxDelay mult
    hfail hretry (maxRetries - 1) 1 initialDelay (by omega) (by omega)
  unfold processBatch
  rw [hrun]
  refine ⟨by simp; omega, rfl, by simp, ?_⟩
  intro k hk
  have hm' : 0 ≤ initialDelay * mult ^ k := mul_nonneg hd (pow_nonneg hm k)
  refine ⟨?_, mul_nonneg (mul_nonneg (hrand (1 + k)).1 (by norm_num)) hm', ?_⟩
  · rw [List.getElem?_map, List.getElem?_range hk]
    rfl
  · have hr := hrand (1 + k)
    nlinarith [hr.1, hr.2, hm']

/-- Witness for `processBatch_retry_bound`: with the default parameters
(`maxRetries = 3`, `initialDelay = 1000`, `maxDelay = 30000`,
`backoffMultiplier = 2`) and every attempt failing with HTTP 429, the batch is
attempted exactly 3 times and the 429 error is raised. -/
theorem processBatch_retry_bound_witness :
    (processBatch (fun _ => Except.error { statusCode := some 429, code := none, message := none })
      (fun _ => (1 : ℚ) / 2) 3 1000 30000 2).attemptsMade = 3 ∧
    (processBatch (fun _ => Except.error { statusCode := some 429, code := none, message := none })
      (fun _ => (1 : ℚ) / 2) 3 1000 30000 2).result =
      Except.error { statusCode := some 429, code := none, message := none } := by
  have h := processBatch_retry_bound
    (fun _ => Except.error { statusCode := some 429, code := none, message := none })
    (fun _ => { statusCode := some 429, code := none, message := none })
    (fun _ => (1 : ℚ) / 2) 3 1000 30000 2 (fun _ => rfl)
    (fun _ => by
      show isRetryableError { statusCode := some 429, code := none, message := none } = true
      decide)
    (fun _ => by norm_num) (by norm_num) (by norm_num) (by omega)
  exact ⟨h.1, h.2.1⟩

/-! Retrieval service: `enhancedSearch` and the SQL function
`match_source_chunks_enhanced` (migration `20251110190114`). -/

/-- One candidate row of the SQL query's `FROM source_chunks sc JOIN sources s
LEFT JOIN essay_sources es` (pre-join state): `dist` is the pgvector cosine
distance `sc.embedding <=> query_embedding` of this row for the query at hand
(the claims quantify over its value, not its formula, so the distance operator
is abstracted as a per-row datum); `essayIds` are the `essay_sources` entries
of the row's source; `metadata` is the row's JSONB object as key/value pairs. -/
structure MatchCandidate where
  rowId : ℕ
  content : Text
  chunk_index : ℕ
  dist : ℚ
  essayIds : List String
  metadata : List (String × String)
  deriving Repr, DecidableEq

/-- The `LEFT JOIN essay_sources es`: a source in no essay yields one row with
a NULL `es.essay_id`; otherwise one row per entry. -/
def essayJoinRows (r : MatchCandidate) : List (MatchCandidate × Option String) :=
  if r.essayIds.isEmpty then [(r, none)] else r.essayIds.map fun e => (r, some e)

/-- The SQL `WHERE` clause: `1 - dist > match_threshold`, the optional essay
filter (`essay_id IS NULL OR es.essay_id = essay_id`; a NULL `es.essay_id`
never equals a given id), and the optional JSONB containment filter
`sc.metadata @> metadata_filter` (modelled as pair containment). -/
def matchesFilters (matchThreshold : ℚ) (essayId : Option String)
    (metadataFilter : Option (List (String × String)))
    (re : MatchCandidate × Option String) : Bool :=
  decide (1 - re.1.dist > matchThreshold) &&
  (match essayId with
   | none => true
   | some eid => re.2 == some eid) &&
  (match metadataFilter with
   | none => true
   | some mf => mf.all fun kv => re.1.metadata.contains kv)

/-- The SQL function `match_source_chunks_enhanced`: filter by threshold and
optional scoping, `ORDER BY sc.embedding <=> query_embedding` (distance
ascending, i.e. similarity descending), `LIMIT match_count`. -/
def match_source_chunks_enhanced (table : List MatchCandidate) (matchThreshold : ℚ)
    (matchCount : ℕ) (essayId : Option String)
    (metadataFilter : Option (List (String × String))) : List MatchCandidate :=
  ((((table.flatMap essayJoinRows).filter
      (matchesFilters matchThreshold essayId metadataFilter)).map Prod.fst).mergeSort
    (fun a b => decide (a.dist ≤ b.dist))).take matchCount

/-- The row shape `enhancedSearch` returns (the fields the claims concern):
`similarity` is the SQL's `1 - dist`. -/
structure SearchResult where
  content : Text
  chunkIndex : ℕ
  similarity : ℚ
  deriving Repr, DecidableEq

def toSearchResult (r : MatchCandidate) : SearchResult :=
  { content := r.content, chunkIndex := r.chunk_index, similarity := 1 - r.dist }

/-- The lexical boost of `rerankResults`: `0.05` per query term appearing as a
literal substring of the lowercased content (`queryTerms` is the raw query
lowercased and split on spaces). -/
def keywordScore (queryTerms : List Text) (content : Text) : ℚ :=
  (1 / 20) * (queryTerms.countP fun term => strIncludes (content.map Char.toLower) term)

/-- The comparator key of `rerankResults`: `similarity + keywordScore`. -/
def combinedScore (queryTerms : List Text) (r : SearchResult) : ℚ :=
  r.similarity + keywordScore queryTerms r.content

/-- `rerankResults` from the search module: re-sort descending by
`combinedScore` (the JS comparator returns `bFinal - aFinal`). -/
def rerankResults (queryTerms : List Text) (results : List SearchResult) : List SearchResult :=
  results.mergeSort fun a b =>
    decide (combinedScore queryTerms b ≤ combinedScore queryTerms a)

/-- The score by which the returned list is ordered: `combinedScore` when
reranking, plain similarity otherwise. -/
def scoreOf (rerank : Bool) (queryTerms : List Text) (r : SearchResult) : ℚ :=
  if rerank then combinedScore queryTerms r else r.similarity

/-- `enhancedSearch(query, options)`: call the SQL function with
`threshold ?? 0.7` and `limit ?? 10`, map rows to results in order, and rerank
only when requested and non-empty. The query's preprocessing and embedding
only determine the per-row distances already recorded in `table`. -/
def enhancedSearch (table : List MatchCandidate) (queryTerms : List Text)
    (limit : Option ℕ) (threshold : Option ℚ) (essayId : Option String)
    (metadataFilter : Option (List (String × String))) (rerank : Bool) : List SearchResult :=
  let results := (match_source_chunks_enhanced table (threshold.getD (7 / 10))
    (limit.getD 10) essayId metadataFilter).map toSearchResult
  if rerank && decide (0 < results.length) then rerankResults queryTerms results else results

theorem mem_match_source_chunks_enhanced (table : List MatchCandidate)
    (matchThreshold : ℚ) (matchCount : ℕ) (essayId : Option String)
    (metadataFilter : Option (List (String × String))) (c : MatchCandidate)
    (hc : c ∈ match_source_chunks_enhanced table matchThreshold matchCount essayId
      metadataFilter) : matchThreshold < 1 - c.dist := by
  unfold match_source_chunks_enhanced at hc
  have hc2 := List.mem_mergeSort.mp (List.mem_of_mem_take hc)
  obtain ⟨re, hre, hfst⟩ := List.mem_map.mp hc2
  obtain ⟨_, hfil⟩ := List.mem_filter.mp hre
  unfold matchesFilters at hfil
  simp only [Bool.and_eq_true, decide_eq_true_eq] at hfil
  rw [← hfst]
  exact hfil.1.1

/-- C5: for every store state, query and options, `enhancedSearch` returns at
most `limit` results (default 10), every returned result's similarity is
strictly greater than the requested threshold (default 0.7), and the results
are sorted descending by score — plain similarity normally (the SQL orders by
distance ascending and the mapping preserves order), combined
similarity-plus-lexical score when `rerank` is requested. -/
theorem enhancedSearch_contract (table : List MatchCandidate) (queryTerms : List Text)
    (limit : Option ℕ) (threshold : Option ℚ) (essayId : Option String)
    (metadataFilter : Option (List (String × String))) (rerank : Bool) :
    (enhancedSearch table queryTerms limit threshold essayId metadataFilter rerank).length ≤
      limit.getD 10 ∧
    (∀ r ∈ enhancedSearch table queryTerms limit threshold essayId metadataFilter rerank,
      threshold.getD (7 / 10) < r.similarity) ∧
    List.Sorted (fun a b => scoreOf rerank queryTerms b ≤ scoreOf rerank queryTerms a)
      (enhancedSearch table queryTerms limit threshold essayId metadataFilter rerank) := by
  have hbaselen : (match_source_chunks_enhanced table (threshold.getD (7 / 10))
      (limit.getD 10) essayId metadataFilter).length ≤ limit.getD 10 := by
    unfold match_source_chunks_enhanced
    rw [List.length_take]
    exact min_le_left _ _
  have hmem : ∀ r ∈ (match_source_chunks_enhanced table (threshold.getD (7 / 10))
      (limit.getD 10) essayId metadataFilter).map toSearchResult,
      threshold.getD (7 / 10) < r.similarity := by
    intro r hr
    obtain ⟨c, hc, hrc⟩ := List.mem_map.mp hr
    have := mem_match_source_chunks_enhanced table _ _ essayId metadataFilter c hc
    rw [← hrc]
    exact this
  have hsortbase : List.Sorted (fun a b : SearchResult => b.similarity ≤ a.similarity)
      ((match_source_chunks_enhanced table (threshold.getD (7 / 10))
        (limit.getD 10) essayId metadataFilter).map toSearchResult) := by
    unfold match_source_chunks_enhanced
    have hs := @List.sorted_mergeSort MatchCandidate
      (fun a b : MatchCandidate => decide (a.dist ≤ b.dist))
      (fun a b c hab hbc => by
        simp only [decide_eq_true_eq] at *
        exact le_trans hab hbc)
      (fun a b => by
        simp only [Bool.or_eq_true, decide_eq_true_eq]
        exact le_total a.dist b.dist)
      (((table.flatMap essayJoinRows).filter
        (matchesFilters (threshold.getD (7 / 10)) essayId metadataFilter)).map Prod.fst)
    have hs2 : List.Pairwise (fun a b : MatchCandidate => a.dist ≤ b.dist)
        ((((table.flatMap essayJoinRows).filter
          (matchesFilters (threshold.getD (7 / 10)) essayId metadataFilter)).map
            Prod.fst).mergeSort (fun a b => decide (a.dist ≤ b.dist))) :=
      hs.imp fun h => by simpa using h
    have hs3 := List.Pairwise.sublist (List.take_sublist (limit.getD 10) _) hs2
    exact List.Pairwise.map toSearchResult
      (fun a b (hab : a.dist ≤ b.dist) => by
        show (1 : ℚ) - b.dist ≤ 1 - a.dist
        linarith) hs3
  unfold enhancedSearch
  by_cases hbr : (rerank && decide
      (0 < ((match_source_chunks_enhanced table (threshold.getD (7 / 10))
        (limit.getD 10) essayId metadataFilter).map toSearchResult).length)) = true
  · simp only [hbr, if_true]
    have hperm : ∀ r ∈ rerankResults queryTerms
        ((match_source_chunks_enhanced table (threshold.getD (7 / 10))
          (limit.getD 10) essayId metadataFilter).map toSearchResult),
        r ∈ (match_source_chunks_enhanced table (threshold.getD (7 / 10))
          (limit.getD 10) essayId metadataFilter).map toSearchResult := by
      intro r hr
      exact List.mem_mergeSort.mp hr
    refine ⟨?_, fun r hr => hmem r (hperm r hr), ?_⟩
    · unfold rerankResults
      rw [List.length_mergeSort, List.length_map]
      exact hbaselen
    · have hrk : rerank = true := by
        rw [Bool.and_eq_true] at hbr
        exact hbr.1
      unfold rerankResults
      have hs := @List.sorted_mergeSort SearchResult
        (fun a b : SearchResult =>
          decide (combinedScore queryTerms b ≤ combinedScore queryTerms a))
        (fun a b c hab hbc => by
          simp only [decide_eq_true_eq] at *
          exact le_trans hbc hab)
        (fun a b => by
          simp only [Bool.or_eq_true, decide_eq_true_eq]
          exact le_total (combinedScore queryTerms b) (combinedScore queryTerms a))
        ((match_source_chunks_enhanced table (threshold.getD (7 / 10))
          (limit.getD 10) essayId metadataFilter).map toSearchResult)
      refine hs.imp fun h => ?_
      simp only [decide_eq_true_eq] at h
      simpa [scoreOf, hrk] using h
  · rw [if_neg hbr]
    refine ⟨by rw [List.length_map]; exact hbaselen, hmem, ?_⟩
    by_cases hrk : rerank = true
    · have hlen : ((match_source_chunks_enhanced table (threshold.getD (7 / 10))
          (limit.getD 10) essayId metadataFilter).map toSearchResult).length = 0 := by
        by_contra hne
        apply hbr
        simp only [hrk, Bool.true_and, decide_eq_true_eq]
        omega
      rw [List.length_eq_zero.mp hlen]
      exact List.sorted_nil
    · have hrk' : rerank = false := by
        cases rerank
        · rfl
        · exact absurd rfl hrk
      refine hsortbase.imp fun {a b} h => ?_
      simpa [scoreOf, hrk'] using h

/-! Backfill orchestrator and individual reprocessing
(`backfill-embeddings.ts`). -/

/-- A source row as loaded by `sources.getById`: the claims only use the id and
the archived body (`jina_archive_contents`, `null` or text). -/
structure Source where
  id : String
  jina_archive_contents : Option Text
  deriving Repr, DecidableEq

/-- JS truthiness of `source.jina_archive_contents`: `null`/`undefined` and the
empty string are falsy. -/
def hasContent : Option Text → Bool
  | none => false
  | some t => !t.isEmpty

/-- A `source_chunks` row as built by the batch processor and inserted by
`batch_insert_chunks` (the fields the claims concern; `heading_context`,
`metadata` and timestamps omitted as in the chunk model). -/
structure StoredChunkRow where
  source_id : String
  content : Text
  chunk_index : ℕ
  token_count : ℕ
  start_char_offset : ℕ
  end_char_offset : ℕ
  embedding : List ℚ
  deriving Repr, DecidableEq

/-- The `chunksData` rows built from a chunk batch: one row per chunk, keyed by
`(source_id, chunk.index)`, with the embedding the provider returned for the
chunk's content (`embed` abstracts the provider as a map from text to vector). -/
def chunkRows (embed : Text → List ℚ) (sourceId : String) (chunks : List ChunkResult) :
    List StoredChunkRow :=
  chunks.map fun c =>
    { source_id := sourceId, content := c.content, chunk_index := c.index,
      token_count := c.tokenCount, start_char_offset := c.startOffset,
      end_char_offset := c.endOffset, embedding := embed c.content }

/-- `processSource(sourceId)` from `backfill-embeddings.ts`: load the source
(`throw` when missing), `throw` when it has no content, delete all chunk rows
of the owner (`sourceChunks.deleteBySourceId`), re-chunk with the default
parameters, `throw` when zero chunks (note: after the delete), embed and
bulk-insert every chunk. Returns the final store alongside the outcome; the
provider and store calls of the success path are abstracted as total
(`embed`), since the claims about this function concern its success path and
its early errors. -/
def processSource (getById : String → Option Source) (embed : Text → List ℚ)
    (store : List StoredChunkRow) (sourceId : String) :
    List StoredChunkRow × Except String Unit :=
  match getById sourceId with
  | none => (store, Except.error ("Source not found: " ++ sourceId))
  | some source =>
    if !hasContent source.jina_archive_contents then
      (store, Except.error ("Source has no content: " ++ sourceId))
    else
      let remaining := store.filter fun row => !(row.source_id == sourceId)
      let chunks := semanticChunk (source.jina_archive_contents.getD []) 512 (mkRat 3 20)
      if chunks.isEmpty then
        (remaining, Except.error ("No chunks generated for source: " ++ sourceId))
      else
        (remaining ++ chunkRows embed sourceId chunks, Except.ok ())

/-- A non-empty document always yields at least one chunk: the loop body runs
at least once and every exit path emits the current chunk. -/
theorem semanticChunk_ne_nil (text : Text) (ts : ℕ) (r : ℚ) (hne : text ≠ []) :
    semanticChunk text ts r ≠ [] := by
  have hlen : 0 < text.length := List.length_pos.mpr hne
  unfold semanticChunk semanticChunkFull
  simp only [semanticChunkLoop, if_pos hlen]
  split <;> simp

/-- C6 counterexample: individually reprocessing a source whose body is `null`
raises `Source has no content` — `processSource` classifies zero extractable
content as a thrown error, not as a skip (and similarly throws
`No chunks generated` for zero chunks), contrary to the claim's
"both … and when reprocessed individually". -/
theorem processSource_no_content_counterexample :
    (processSource (fun _ => some { id := "s1", jina_archive_contents := none })
      (fun _ => []) [] "s1").2 =
      Except.error ("Source has no content: " ++ "s1") ∧
    (processSource (fun _ => some { id := "s1", jina_archive_contents := none })
      (fun _ => []) [] "s1").1 = [] :=
  ⟨rfl, rfl⟩

/-- C8: reprocessing a source with unchanged text and parameters — delete all
rows of the owner, re-chunk, reinsert — succeeds and always stores exactly the
chunk list of the text: the same chunk count and the same `(content, index)`
for every chunk, regardless of the previous store contents and regardless of
the embedding vectors the provider returns, because chunking the same input
with the same parameters yields identical boundaries on every run. -/
theorem processSource_reprocess_deterministic (getById : String → Option Source)
    (embed₁ embed₂ : Text → List ℚ) (store₁ store₂ : List StoredChunkRow)
    (sourceId : String) (source : Source) (contents : Text)
    (hget : getById sourceId = some source)
    (hc : source.jina_archive_contents = some contents) (hne : contents ≠ []) :
    (processSource getById embed₁ store₁ sourceId).2 = Except.ok () ∧
    ((processSource getById embed₁ store₁ sourceId).1.filter
        (fun row => row.source_id == sourceId)).map
      (fun row => (row.content, row.chunk_index)) =
      (semanticChunk contents 512 (mkRat 3 20)).map (fun c => (c.content, c.index)) ∧
    ((processSource getById embed₁ store₁ sourceId).1.filter
        (fun row => row.source_id == sourceId)).length =
      (semanticChunk contents 512 (mkRat 3 20)).length ∧
    ((processSource getById embed₁ store₁ sourceId).1.filter
        (fun row => row.source_id == sourceId)).map
      (fun row => (row.content, row.chunk_index)) =
      ((processSource getById embed₂ store₂ sourceId).1.filter
        (fun row => row.source_id == sourceId)).map
      (fun row => (row.content, row.chunk_index)) := by
  have key : ∀ (embed : Text → List ℚ) (store : List StoredChunkRow),
      (processSource getById embed store sourceId).2 = Except.ok () ∧
      ((processSource getById embed store sourceId).1.filter
          (fun row => row.source_id == sourceId)).map
        (fun row => (row.content, row.chunk_index)) =
        (semanticChunk contents 512 (mkRat 3 20)).map (fun c => (c.content, c.index)) ∧
      ((processSource getById embed store sourceId).1.filter
          (fun row => row.source_id == sourceId)).length =
        (semanticChunk contents 512 (mkRat 3 20)).length := by
    intro embed store
    have hhc : (!hasContent (some contents)) = false := by
      unfold hasContent
      simp [hne]
    have hchunks : (semanticChunk contents 512 (mkRat 3 20)).isEmpty = false := by
      rw [List.isEmpty_eq_false]
      exact semanticChunk_ne_nil contents 512 (mkRat 3 20) hne
    have hres : processSource getById embed store sourceId =
        ((store.filter fun row => !(row.source_id == sourceId)) ++
          chunkRows embed sourceId (semanticChunk contents 512 (mkRat 3 20)),
         Except.ok ()) := by
      unfold processSource
      rw [hget]
      simp only [hc, Option.getD_some]
      rw [if_neg (by simp [hhc]), if_neg (by simp [hchunks])]
    rw [hres]
    have hfilters : ((store.filter fun row => !(row.source_id == sourceId)) ++
        chunkRows embed sourceId (semanticChunk contents 512 (mkRat 3 20))).filter
        (fun row => row.source_id == sourceId) =
        chunkRows embed sourceId (semanticChunk contents 512 (mkRat 3 20)) := by
      rw [List.filter_append]
      have h1 : (store.filter fun row => !(row.source_id == sourceId)).filter
          (fun row => row.source_id == sourceId) = [] := by
        rw [List.filter_filter, List.filter_eq_nil_iff]
        intro row _
        cases hrow : row.source_id == sourceId <;> simp [hrow]
      have h2 : (chunkRows embed sourceId (semanticChunk contents 512 (mkRat 3 20))).filter
          (fun row => row.source_id == sourceId) =
          chunkRows embed sourceId (semanticChunk contents 512 (mkRat 3 20)) := by
        rw [List.filter_eq_self]
        intro row hrow
        obtain ⟨c, _, hcr⟩ := List.mem_map.mp hrow
        rw [← hcr]
        simp
      rw [h1, h2, List.nil_append]
    refine ⟨rfl, ?_, ?_⟩
    · rw [hfilters]
      unfold chunkRows
      rw [List.map_map]
      rfl
    · rw [hfilters]
      unfold chunkRows
      rw [List.length_map]
  obtain ⟨k1a, k1b, k1c⟩ := key embed₁ store₁
  obtain ⟨_, k2b, _⟩ := key embed₂ store₂
  exact ⟨k1a, k1b, k1c, by rw [k1b, k2b]⟩

/-- Witness for `processSource_reprocess_deterministic`: reprocessing a
concrete one-document store succeeds. -/
theorem processSource_reprocess_deterministic_witness :
    (processSource
      (fun _ => some { id := "s1", jina_archive_contents := some ("hello world".toList) })
      (fun _ => [1]) [] "s1").2 = Except.ok () :=
  (processSource_reprocess_deterministic
    (fun _ => some { id := "s1", jina_archive_contents := some ("hello world".toList) })
    (fun _ => [1]) (fun _ => [1]) [] [] "s1"
    { id := "s1", jina_archive_contents := some ("hello world".toList) }
    ("hello world".toList) rfl rfl (by decide)).1

/-- The per-source metadata of `sources.getAllMinimal`. -/
structure SourceMeta where
  id : String
  title : String
  deriving Repr, DecidableEq

/-- The environment a backfill run interacts with: the cheap existence check
`sourceChunks.hasEmbeddings`, the loader `sources.getById`, and the outcome of
`processSourceInBatchesStreaming` for each source (`none` = success, `some e` =
the error the streaming batch processor raised after its internal retries). -/
structure BackfillEnv where
  hasEmbeddings : String → Bool
  getById : String → Option Source
  processOutcome : String → Option ProviderError

/-- `BackfillResult` from `backfill-embeddings.ts`. -/
structure BackfillResult where
  totalSources : ℕ
  processedSources : ℕ
  skippedSources : ℕ
  failedSources : ℕ
  totalChunks : ℕ
  errors : List (String × ProviderError)
  deriving Repr, DecidableEq

/-- The per-source body of `backfillEmbeddings` (the `processSource` closure):
skip when `skipExisting` finds stored embeddings, when the source is missing,
when its body is falsy, or when zero chunks are generated (a zero-chunk
generator feeds no batch to the batch processor, which therefore cannot fail);
a streaming-processor error increments `failedSources` and records
`(sourceId, error)`; otherwise the source counts as processed and its chunk
count accumulates. The `onProgress`/`onError` callbacks are assumed
non-throwing (the claims' hypothesis) and do not affect the result. -/
def backfillStep (skipExisting : Bool) (env : BackfillEnv) (acc : BackfillResult)
    (meta : SourceMeta) : BackfillResult :=
  if skipExisting && env.hasEmbeddings meta.id then
    { acc with skippedSources := acc.skippedSources + 1 }
  else
    match env.getById meta.id with
    | none => { acc with skippedSources := acc.skippedSources + 1 }
    | some source =>
      if !hasContent source.jina_archive_contents then
        { acc with skippedSources := acc.skippedSources + 1 }
      else
        if (semanticChunk (source.jina_archive_contents.getD []) 512
            (mkRat 3 20)).length = 0 then
          { acc with skippedSources := acc.skippedSources + 1 }
        else
          match env.processOutcome meta.id with
          | some e =>
            { acc with
              failedSources := acc.failedSources + 1
              errors := acc.errors ++ [(meta.id, e)] }
          | none =>
            { acc with
              processedSources := acc.processedSources + 1
              totalChunks := acc.totalChunks +
                (semanticChunk (source.jina_archive_contents.getD []) 512
                  (mkRat 3 20)).length }

/-- `backfillEmbeddings(options)`: `totalSources` is set from the listing, then
every source is processed sequentially (`pLimit(1)`); each source's error is
caught inside its closure, so the run always produces a result. -/
def backfillEmbeddings (skipExisting : Bool) (env : BackfillEnv)
    (minimalSources : List SourceMeta) : BackfillResult :=
  minimalSources.foldl (backfillStep skipExisting env)
    { totalSources := minimalSources.length, processedSources := 0, skippedSources := 0,
      failedSources := 0, totalChunks := 0, errors := [] }

theorem backfillStep_counts (skipExisting : Bool) (env : BackfillEnv)
    (acc : BackfillResult) (meta : SourceMeta) :
    (backfillStep skipExisting env acc meta).totalSources = acc.totalSources ∧
    (backfillStep skipExisting env acc meta).processedSources +
      (backfillStep skipExisting env acc meta).skippedSources +
      (backfillStep skipExisting env acc meta).failedSources =
      acc.processedSources + acc.skippedSources + acc.failedSources + 1 ∧
    (backfillStep skipExisting env acc meta).errors.length + acc.failedSources =
      acc.errors.length + (backfillStep skipExisting env acc meta).failedSources := by
  obtain ⟨ts, p, s, f, tc, errs⟩ := acc
  unfold backfillStep
  repeat' split
  all_goals refine ⟨rfl, ?_, ?_⟩
  all_goals first
  | (simp [List.length_append]; omega)
  | simp [List.length_append]
  | omega

theorem backfill_foldl_invariant (skipExisting : Bool) (env : BackfillEnv) :
    ∀ (l : List SourceMeta) (acc : BackfillResult),
      (l.foldl (backfillStep skipExisting env) acc).totalSources = acc.totalSources ∧
      (l.foldl (backfillStep skipExisting env) acc).processedSources +
        (l.foldl (backfillStep skipExisting env) acc).skippedSources +
        (l.foldl (backfillStep skipExisting env) acc).failedSources =
        acc.processedSources + acc.skippedSources + acc.failedSources + l.length ∧
      (l.foldl (backfillStep skipExisting env) acc).errors.length + acc.failedSources =
        acc.errors.length + (l.foldl (backfillStep skipExisting env) acc).failedSources := by
  intro l
  induction l with
  | nil =>
    intro acc
    simp
  | cons m rest ih =>
    intro acc
    rw [List.foldl_cons]
    have hstep := backfillStep_counts skipExisting env acc m
    have hrest := ih (backfillStep skipExisting env acc m)
    simp only [List.length_cons]
    exact ⟨by omega, by omega, by omega⟩

/-- C10: for every backfill run (with the callbacks assumed non-throwing, as
they are modelled), the returned result satisfies
`processedSources + skippedSources + failedSources = totalSources`,
`errors.length = failedSources`, and `totalSources` equals the number of listed
sources; the run is a total function of its inputs — each document's error is
caught and tallied, never propagated, so the run always returns a result. -/
theorem backfillEmbeddings_invariants (skipExisting : Bool) (env : BackfillEnv)
    (minimalSources : List SourceMeta) :
    (backfillEmbeddings skipExisting env minimalSources).processedSources +
      (backfillEmbeddings skipExisting env minimalSources).skippedSources +
      (backfillEmbeddings skipExisting env minimalSources).failedSources =
      (backfillEmbeddings skipExisting env minimalSources).totalSources ∧
    (backfillEmbeddings skipExisting env minimalSources).errors.length =
      (backfillEmbeddings skipExisting env minimalSources).failedSources ∧
    (backfillEmbeddings skipExisting env minimalSources).totalSources =
      minimalSources.length := by
  have h := backfill_foldl_invariant skipExisting env minimalSources
    { totalSources := minimalSources.length, processedSources := 0, skippedSources := 0,
      failedSources := 0, totalChunks := 0, errors := [] }
  unfold backfillEmbeddings
  refine ⟨?_, ?_, ?_⟩ <;> simp at h <;> omega

/-- C6 (amended): in the backfill orchestrator a source with zero extractable
content (missing or empty body) stores no chunk rows and is classified as a
skip, not a failure — in particular a backfill over 3 documents where one has
no content ends with `processed = 2, skipped = 1, failed = 0` — but individual
reprocessing (`processSource`) raises `Source has no content` /
`No chunks generated` instead of skipping, as the counterexample shows. -/
theorem backfill_zero_content_is_skip :
    (∀ (skipExisting : Bool) (env : BackfillEnv) (acc : BackfillResult)
      (meta : SourceMeta) (source : Source),
      env.getById meta.id = some source →
      hasContent source.jina_archive_contents = false →
      (skipExisting = true → env.hasEmbeddings meta.id = false) →
      backfillStep skipExisting env acc meta =
        { acc with skippedSources := acc.skippedSources + 1 }) ∧
    backfillEmbeddings true
      { hasEmbeddings := fun _ => false,
        getById := fun sourceId =>
          if sourceId = "s2" then some { id := "s2", jina_archive_contents := none }
          else some { id := sourceId, jina_archive_contents := some ("hello world".toList) },
        processOutcome := fun _ => none }
      [{ id := "s1", title := "t1" }, { id := "s2", title := "t2" },
        { id := "s3", title := "t3" }] =
      { totalSources := 3, processedSources := 2, skippedSources := 1,
        failedSources := 0, totalChunks := 2, errors := [] } := by
  constructor
  · intro skipExisting env acc meta source hget hnc hskip
    have hc1 : (skipExisting && env.hasEmbeddings meta.id) = false := by
      cases hsk : skipExisting
      · rfl
      · simp [hskip hsk]
    unfold backfillStep
    rw [if_neg (by simp [hc1]), hget]
    show (if (!hasContent source.jina_archive_contents) = true then _ else _) = _
    rw [if_pos (by simp [hnc])]
  · decide

/-- Witness for `backfill_zero_content_is_skip`: one step on a concrete
empty-body source increments only `skippedSources`. -/
theorem backfill_zero_content_is_skip_witness :
    backfillStep true
      { hasEmbeddings := fun _ => false,
        getById := fun _ => some { id := "s9", jina_archive_contents := some [] },
        processOutcome := fun _ => none }
      { totalSources := 1, processedSources := 0, skippedSources := 0,
        failedSources := 0, totalChunks := 0, errors := [] }
      { id := "s9", title := "t9" } =
      { totalSources := 1, processedSources := 0, skippedSources := 1,
        failedSources := 0, totalChunks := 0, errors := [] } :=
  backfill_zero_content_is_skip.1 true
    { hasEmbeddings := fun _ => false,
      getById := fun _ => some { id := "s9", jina_archive_contents := some [] },
      processOutcome := fun _ => none }
    { totalSources := 1, processedSources := 0, skippedSources := 0,
      failedSources := 0, totalChunks := 0, errors := [] }
    { id := "s9", title := "t9" }
    { id := "s9", jina_archive_contents := some [] } rfl rfl (fun _ => rfl)

end Novus
